import Mathlib

/-!
A shallow embedding of `conceptnet5/nodes.py`: construction of concept URIs
from natural-language text, and conversion of URIs to linked-data nodes.

Pure Python functions become Lean functions over `String` (represented through
`String.data : List Char` where character-level reasoning is needed). The
collaborators that live outside this module (the wordfreq tokenizer and
preprocessor, the English stopword filter, the language alias table, and the
URI string helpers) are either modelled from the spec (marked in their doc
comments) or passed as explicit parameters.
-/

/-! ## Character-level helpers for the modelled tokenizer -/

/-- A character that can appear inside a token: letters and digits.
Everything else (punctuation, whitespace, underscores, symbols) acts as a
token separator in the modelled tokenizer. -/
def isTokenChar (c : Char) : Bool := c.isAlphanum

/-- One character of Python's `text.replace('_', ' ')`. -/
def replChar (c : Char) : Char := if c = '_' then ' ' else c

/-- Embedding of `text.replace('_', ' ')` from `standardize_text` and
`standardized_concept_uri`. -/
def replaceUnderscores (s : String) : String := String.mk (s.data.map replChar)

/-- ASCII lowercasing of one character, the case folding performed by the
modelled tokenizer and by `str.lower()`. -/
def lowerChar (c : Char) : Char :=
  if c.isUpper then Char.ofNat (c.toNat + 32) else c

/-- Embedding of Python's `str.lower()` (used on language codes). -/
def str_lower (s : String) : String := String.mk (s.data.map lowerChar)

/-- Splits a character list into maximal runs of token characters; separator
characters are dropped. Core of the modelled tokenizer. -/
def tokenizeChars : List Char → List (List Char)
  | [] => []
  | [c] => if isTokenChar c then [[c]] else []
  | c :: d :: rest =>
    if isTokenChar c then
      if isTokenChar d then
        match tokenizeChars (d :: rest) with
        | t :: ts => (c :: t) :: ts
        | [] => [[c]]
      else [c] :: tokenizeChars (d :: rest)
    else tokenizeChars (d :: rest)

/-- Modelled from the spec: the external tokenizer `wordfreq.simple_tokenize`
(an external collaborator, absent from the sources). Per the spec it performs
Unicode-aware, case-folding word segmentation in which whitespace and
punctuation separate tokens; it is modelled as case folding followed by
splitting into maximal runs of alphanumeric characters. -/
def simple_tokenize (text : String) : List String :=
  (tokenizeChars (text.data.map lowerChar)).map String.mk

/-- Embedding of Python's `'_'.join(tokens)`. -/
def joinUnderscore : List String → String
  | [] => ""
  | [t] => t
  | t :: t2 :: ts => t ++ "_" ++ joinUnderscore (t2 :: ts)

/-- Embedding of Python's `'/'.join(pieces)`. -/
def joinSlash : List String → String
  | [] => ""
  | [t] => t
  | t :: t2 :: ts => t ++ "/" ++ joinSlash (t2 :: ts)

/-! ## The Text Standardizer -/

/-- Modelled from the spec: the fixed English stopword set used by the
stopword filter (an in-repository module, `conceptnet5.language.english`,
absent from the sources). The set is chosen to match the doctests in
`nodes.py`: the article in "a big dog" is removed while "this", "is",
"big", "dog" are kept. -/
def STOPWORDS : List String := ["the", "a", "an"]

/-- Modelled from the spec: the tokens dropped from the front of a phrase by
the English filter, so that "to go" collapses to "go". -/
def DROP_FIRST : List String := ["to"]

/-- Modelled from the spec: `english_filter` from
`conceptnet5.language.english` (in-repository, absent from the sources).
Per the spec it removes a fixed stopword set and collapses phrases such as
"to go" into "go" by dropping a leading "to". -/
def english_filter (tokens : List String) : List String :=
  (tokens.filter (fun t => !(STOPWORDS.contains t))).dropWhile
    (fun t => DROP_FIRST.contains t)

/-- Embedding of `standardize_text(text, token_filter=None)` from
`nodes.py`: replace underscores by spaces, tokenize, optionally apply the
token filter, and join the surviving tokens with underscores. `none` models
Python's `token_filter=None` default. -/
def standardize_text (text : String)
    (token_filter : Option (List String → List String)) : String :=
  let tokens := simple_tokenize (replaceUnderscores text)
  let tokens :=
    match token_filter with
    | some f => f tokens
    | none => tokens
  joinUnderscore tokens

/-! ## Language resolution and the Concept URI Builder -/

/-- Embedding of lines 122-124 of `nodes.py`: lowercase the language code and
replace it by its alias target when the alias table has an entry for it. The
alias table `LCODE_ALIASES` (in-repository, absent from the sources) is
passed as an explicit association list. -/
def resolve_lcode (aliases : List (String × String)) (lang : String) : String :=
  let lang := str_lower lang
  match aliases.lookup lang with
  | some canonical => canonical
  | none => lang

/-- Embedding of lines 125-128 of `nodes.py`: the English stopword filter is
selected exactly for the resolved language "en"; otherwise no filter. -/
def select_token_filter (lang : String) :
    Option (List String → List String) :=
  if lang = "en" then some english_filter else none

/-- Modelled from the spec: the external assembler `conceptnet5.uri.concept_uri`
(in-repository, absent from the sources). Per the spec it assembles
`/c/<language>/<primary>` followed by one path segment per standardized
hint, in order. -/
def concept_uri (lang : String) (text : String) (more : List String) : String :=
  more.foldl (fun acc piece => acc ++ "/" ++ piece) ("/c/" ++ lang ++ "/" ++ text)

/-- Embedding of `standardized_concept_uri(lang, text, *more)` from
`nodes.py`. The language alias table and the wordfreq preprocessor
(`preprocess_text`, an external collaborator) are explicit parameters; the
variadic `more` becomes a list in which `none` models Python's `None`. -/
def standardized_concept_uri (aliases : List (String × String))
    (preprocess_text : String → String → String)
    (lang : String) (text : String) (more : List (Option String)) : String :=
  let lang := resolve_lcode aliases lang
  let token_filter := select_token_filter lang
  let text := preprocess_text (replaceUnderscores text) lang
  let norm_text := standardize_text text token_filter
  let more_text :=
    more.filterMap (fun item => item.map (fun s => standardize_text s token_filter))
  concept_uri lang norm_text more_text

/-- A preprocessor that changes nothing, used to instantiate the
`preprocess_text` collaborator parameter on concrete inputs. -/
def trivialPreprocess (text : String) (_lang : String) : String := text

/-! ## The Topic Disambiguator -/

/-- Splits a character list at the first occurrence of `ch`: returns the
characters before it and the characters after it, or `none` when `ch` does
not occur. -/
def splitAtChar (ch : Char) : List Char → Option (List Char × List Char)
  | [] => none
  | c :: rest =>
    if c = ch then some ([], rest)
    else
      match splitAtChar ch rest with
      | some (pre, post) => some (c :: pre, post)
      | none => none

/-- Embedding of `re.match(r'([^(]+) \(([^)]+)\)', topic)` from
`topic_to_concept`. Because the first group cannot contain "(", a match
forces the literal "(" to be the first "(" of the string, preceded by a
space that follows a non-empty prefix; the second group then runs to the
first ")" after it and must be non-empty. Text after the ")" is ignored,
as `re.match` only anchors at the start. Returns the two groups. -/
def reMatchTopic (topic : String) : Option (String × String) :=
  match splitAtChar '(' topic.data with
  | none => none
  | some (pre, post) =>
    match pre.getLast? with
    | none => none
    | some c =>
      if c = ' ' then
        if pre.dropLast = [] then none
        else
          match splitAtChar ')' post with
          | none => none
          | some (g2, _) =>
            if g2 = [] then none
            else some (String.mk pre.dropLast, String.mk g2)
      else none

/-- Embedding of `topic_to_concept(language, topic)` from `nodes.py`:
replace underscores by spaces, then either delegate the whole topic with no
hints, or, when the parenthetical pattern matches, delegate group 1 with the
hints "n", "wp" and group 2. -/
def topic_to_concept (aliases : List (String × String))
    (preprocess_text : String → String → String)
    (language : String) (topic : String) : String :=
  let topic := replaceUnderscores topic
  match reMatchTopic topic with
  | none => standardized_concept_uri aliases preprocess_text language topic []
  | some (g1, g2) =>
    standardized_concept_uri aliases preprocess_text language g1
      [some "n", some "wp", some g2]

/-! ## The retired entry point -/

/-- The error raised by the retired entry point; models Python's
`NotImplementedError`. -/
structure NotImplementedError where
  msg : String
deriving Repr, DecidableEq

/-- Embedding of `standardized_concept_name(lang, text)` from `nodes.py`:
it unconditionally raises `NotImplementedError`, naming the replacement. -/
def standardized_concept_name (_lang _text : String) :
    Except NotImplementedError String :=
  Except.error
    ⟨"standardized_concept_name has been removed. Use standardize_text instead."⟩

/-- Embedding of `normalized_concept_name = standardized_concept_name`. -/
def normalized_concept_name : String → String → Except NotImplementedError String :=
  standardized_concept_name

/-- `needle` occurs contiguously inside `hay`. -/
def containsSubstring (needle hay : String) : Prop :=
  ∃ pre post : List Char, hay.data = pre ++ needle.data ++ post

/-! ## The Validity Checker -/

/-- Embedding of `valid_concept_name(text)` from `nodes.py`:
`bool(standardize_text(text))`, i.e. true exactly when standardizing with the
default (no) token filter yields a non-empty string. -/
def valid_concept_name (text : String) : Bool :=
  standardize_text text none != ""

/-! ## The Linked-Data Node Converter -/

/-- Modelled from the spec: the external is-term predicate from
`conceptnet5.uri` (in-repository, absent from the sources). A term
identifier is one in the concept namespace `/c/`. -/
def is_term (uri : String) : Bool := "/c/".data.isPrefixOf uri.data

/-- Embedding of Python's `uri.startswith('http')` from `ld_node`. -/
def startsWithHttp (uri : String) : Bool := "http".data.isPrefixOf uri.data

/-- Embedding of Python's `uri.startswith('/r/')` from `ld_node`. -/
def startsWithRel (uri : String) : Bool := "/r/".data.isPrefixOf uri.data

/-- Splits a character list on `'/'`, keeping empty pieces, like Python's
`str.split('/')`. -/
def splitSlash : List Char → List (List Char)
  | [] => [[]]
  | c :: rest =>
    if c = '/' then [] :: splitSlash rest
    else
      match splitSlash rest with
      | t :: ts => (c :: t) :: ts
      | [] => [[c]]

/-- Modelled from the spec: the external helper `conceptnet5.uri.split_uri`
(in-repository, absent from the sources): the identifier's slash-delimited
path segments, without the empty segment before the leading slash. -/
def split_uri (uri : String) : List String :=
  ((splitSlash uri.data).map String.mk).drop 1

/-- Modelled from the spec: the external helper
`conceptnet5.uri.get_uri_language` (in-repository, absent from the
sources): the language segment of a concept URI. -/
def get_uri_language (uri : String) : String := (split_uri uri).getD 1 ""

/-- Modelled from the spec: the external helper from `conceptnet5.uri`
giving an identifier's first three path segments (language plus primary
text, without sense segments). -/
def uri_prefix (uri : String) : String :=
  "/" ++ joinSlash ((split_uri uri).take 3)

/-- Modelled from the spec: the external identifier-to-label helper
`conceptnet5.uri.uri_to_label` (in-repository, absent from the sources).
The spec leaves it a black box; it is modelled as the identifier's text
segment (third path piece, if any, else the identifier itself) with
underscores turned into spaces. -/
def uri_to_label (uri : String) : String :=
  String.mk (((split_uri uri).getD 2 uri).data.map replChar)

/-- Modelled from the spec: the network-location component of a URL as
extracted by `urllib.parse.urlparse(uri).netloc` (standard-library
collaborator): the text between the "://" scheme separator and the next
"/", "?" or "#". -/
def afterScheme : List Char → Option (List Char)
  | ':' :: '/' :: '/' :: rest => some rest
  | _ :: rest => afterScheme rest
  | [] => none

/-- The network-location component of `uri`; empty when `uri` has no
"://" separator. -/
def netloc (uri : String) : String :=
  match afterScheme uri.data with
  | none => ""
  | some rest =>
    String.mk (rest.takeWhile (fun c => !(c == '/') && !(c == '?') && !(c == '#')))

/-- The linked-data dictionary built by `ld_node`, with one field per
possible key; a key absent from the Python dictionary is `none`. -/
structure LDNode where
  atId : String
  label : String
  language : Option String
  sense_label : Option String
  term : Option String
  site : Option String
  site_available : Option Bool
  atType : Option String
deriving Repr, DecidableEq

/-- Embedding of `ld_node(uri, label=None)` from `nodes.py`: derive the
label when absent, then branch on the identifier's shape (term, external
URL, relation, other). -/
def ld_node (uri : String) (labelOpt : Option String) : LDNode :=
  let label :=
    match labelOpt with
    | some l => l
    | none => uri_to_label uri
  if is_term uri then
    let pieces := split_uri uri
    let sense :=
      if 3 < pieces.length then some (joinSlash (pieces.drop 3)) else none
    LDNode.mk uri label (some (get_uri_language uri)) sense
      (some ( uri_prefix uri)) none none (some "Node")
  else if startsWithHttp uri then
    let domain := netloc uri
    LDNode.mk uri label none none (some uri) (some domain)
      (some (!(domain == "sw.opencyc.org" || domain == "umbel.org")))
      (some "Node")
  else if startsWithRel uri then
    LDNode.mk uri label none none none none none (some "Relation")
  else
    LDNode.mk uri label none none none none none none

/-! ## Predicates and helpers used by the verification statements -/

/-- A token as produced by tokenization: non-empty, containing neither an
underscore nor a whitespace character (the collaborator contract for
tokens; the spec's data model also rules out empty tokens, since joined
results never contain consecutive underscores from empty tokens). -/
def cleanToken (t : String) : Prop :=
  t.data ≠ [] ∧ ∀ c ∈ t.data, c ≠ '_' ∧ c.isWhitespace = false

/-- A well-joined standardized string: no leading underscore, no trailing
underscore, no two consecutive underscores, and no whitespace character. -/
def cleanJoined (s : String) : Prop :=
  (∀ c, s.data.head? = some c → c ≠ '_') ∧
  (∀ c, s.data.getLast? = some c → c ≠ '_') ∧
  List.Chain' (fun a b => ¬(a = '_' ∧ b = '_')) s.data ∧
  ∀ c ∈ s.data, c.isWhitespace = false

/-- Character lists joined by single spaces; the shape of a standardized
string after its separating underscores are turned back into spaces. -/
def sjoin : List (List Char) → List Char
  | [] => []
  | [t] => t
  | t :: t2 :: ts => t ++ ' ' :: sjoin (t2 :: ts)

/-! ## Doctest checks from `nodes.py` -/

example : standardize_text " cat" none = "cat" := by decide
example : standardize_text "a big dog" (some english_filter) = "big_dog" := by decide
example : standardize_text "a big dog" none = "a_big_dog" := by decide
example : standardize_text "Italian supercat" none = "italian_supercat" := by decide
example : standardize_text "to go" (some english_filter) = "go" := by decide
example : standardize_text "Test?!" none = "test" := by decide
example : standardize_text "TEST." none = "test" := by decide
example : standardize_text "test/test" none = "test_test" := by decide
example : standardize_text "_" none = "" := by decide
example : standardize_text "," none = "" := by decide
example :
    standardized_concept_uri [] trivialPreprocess "en" "this is a test" []
      = "/c/en/this_is_test" := by decide
example :
    standardized_concept_uri [] trivialPreprocess "en" "this is a test"
      [some "n", some "example phrase"]
      = "/c/en/this_is_test/n/example_phrase" := by decide
example :
    topic_to_concept [] trivialPreprocess "en" "Township (United States)"
      = "/c/en/township/n/wp/united_states" := by decide
example : valid_concept_name "word" = true := by decide
example : valid_concept_name "the" = true := by decide
example : valid_concept_name ",," = false := by decide
example : valid_concept_name "/" = false := by decide
example : valid_concept_name " " = false := by decide

/-! ## String and tokenizer lemmas -/

theorem string_mk_data (s : String) : String.mk s.data = s := by
  cases s
  rfl

theorem string_data_append (a b : String) : (a ++ b).data = a.data ++ b.data :=
  String.data_append a b

theorem tokenChar_not_ws (c : Char) (h : isTokenChar c = true) :
    c.isWhitespace = false := by
  by_contra hws
  rw [Bool.not_eq_false] at hws
  simp [Char.isWhitespace] at hws
  rcases hws with ((h1 | h1) | h1) | h1 <;> subst h1 <;> exact absurd h (by decide)

theorem tokenChar_ne_underscore (c : Char) (h : isTokenChar c = true) :
    c ≠ '_' := by
  intro he
  rw [he] at h
  exact absurd h (by decide)

theorem tokenizeChars_skip (c : Char) (xs : List Char)
    (h : isTokenChar c = false) : tokenizeChars (c :: xs) = tokenizeChars xs := by
  cases xs with
  | nil => simp [tokenizeChars, h]
  | cons d rest => simp [tokenizeChars, h]

theorem tokenizeChars_clean (cs : List Char) :
    ∀ t ∈ tokenizeChars cs, t ≠ [] ∧ ∀ c ∈ t, isTokenChar c = true := by
  induction cs with
  | nil => intro t ht; simp [tokenizeChars] at ht
  | cons c rest ih =>
    cases rest with
    | nil =>
      intro t ht
      by_cases h : isTokenChar c
      · simp [tokenizeChars, h] at ht
        subst ht
        refine ⟨by simp, ?_⟩
        intro x hx
        simp at hx
        subst hx
        exact h
      · simp [tokenizeChars, h] at ht
    | cons d rest2 =>
      intro t ht
      by_cases hc : isTokenChar c
      · by_cases hd : isTokenChar d
        · cases e : tokenizeChars (d :: rest2) with
          | nil =>
            simp [tokenizeChars, hc, hd, e] at ht
            subst ht
            refine ⟨by simp, ?_⟩
            intro x hx
            simp at hx
            subst hx
            exact hc
          | cons t0 ts0 =>
            simp only [tokenizeChars, hc, hd, if_true, e] at ht
            rcases List.mem_cons.mp ht with h1 | h2
            · subst h1
              have ht0 := ih t0 (by rw [e]; exact List.mem_cons_self _ _)
              refine ⟨by simp, ?_⟩
              intro x hx
              rcases List.mem_cons.mp hx with rfl | hx2
              · exact hc
              · exact ht0.2 x hx2
            · exact ih t (by rw [e]; exact List.mem_cons_of_mem _ h2)
        · simp only [tokenizeChars, hc, if_true] at ht
          rw [if_neg (by simpa using hd)] at ht
          rcases List.mem_cons.mp ht with h1 | h2
          · subst h1
            refine ⟨by simp, ?_⟩
            intro x hx
            simp at hx
            subst hx
            exact hc
          · exact ih t h2
      · rw [tokenizeChars_skip c _ (by simpa using hc)] at ht
        exact ih t ht

theorem tokenizeChars_nil_of_no_token (cs : List Char)
    (h : ∀ c ∈ cs, isTokenChar c = false) : tokenizeChars cs = [] := by
  induction cs with
  | nil => rfl
  | cons c rest ih =>
    rw [tokenizeChars_skip c rest (h c (List.mem_cons_self c rest))]
    exact ih fun x hx => h x (List.mem_cons_of_mem c hx)

theorem tokenizeChars_all_token (t : List Char) (hne : t ≠ [])
    (h : ∀ c ∈ t, isTokenChar c = true) : tokenizeChars t = [t] := by
  induction t with
  | nil => exact absurd rfl hne
  | cons c rest ih =>
    cases rest with
    | nil => simp [tokenizeChars, h c (by simp)]
    | cons d rest2 =>
      have hc := h c (by simp)
      have hd := h d (by simp)
      have hrec := ih (by simp) fun x hx => h x (List.mem_cons_of_mem c hx)
      simp [tokenizeChars, hc, hd, hrec]

theorem tokenizeChars_token_space (t rest : List Char) (hne : t ≠ [])
    (ht : ∀ c ∈ t, isTokenChar c = true) :
    tokenizeChars (t ++ ' ' :: rest) = t :: tokenizeChars rest := by
  induction t with
  | nil => exact absurd rfl hne
  | cons c t2 ih =>
    cases t2 with
    | nil =>
      have hc := ht c (by simp)
      simp only [List.cons_append, List.nil_append]
      rw [show tokenizeChars (c :: ' ' :: rest)
          = [c] :: tokenizeChars (' ' :: rest) from by
        simp [tokenizeChars, hc, show isTokenChar ' ' = false from by decide]]
      rw [tokenizeChars_skip ' ' rest (by decide)]
    | cons d t3 =>
      have hc := ht c (by simp)
      have hd := ht d (by simp)
      have ihh := ih (by simp) fun x hx => ht x (List.mem_cons_of_mem c hx)
      simp only [List.cons_append] at ihh ⊢
      rw [show tokenizeChars (c :: d :: (t3 ++ ' ' :: rest))
          = match tokenizeChars (d :: (t3 ++ ' ' :: rest)) with
            | t :: ts => (c :: t) :: ts
            | [] => [[c]] from by
        simp [tokenizeChars, hc, hd]]
      rw [ihh]

theorem tokenizeChars_sjoin (tsd : List (List Char))
    (h : ∀ t ∈ tsd, t ≠ [] ∧ ∀ c ∈ t, isTokenChar c = true) :
    tokenizeChars (sjoin tsd) = tsd := by
  induction tsd with
  | nil => rfl
  | cons t ts ih =>
    cases ts with
    | nil =>
      have h1 := h t (by simp)
      simpa [sjoin] using tokenizeChars_all_token t h1.1 h1.2
    | cons t2 ts2 =>
      have h1 := h t (by simp)
      rw [show sjoin (t :: t2 :: ts2) = t ++ ' ' :: sjoin (t2 :: ts2) from rfl,
        tokenizeChars_token_space t _ h1.1 h1.2,
        ih fun x hx => h x (List.mem_cons_of_mem t hx)]

theorem clean_map_id (l : List Char)
    (h : ∀ c ∈ l, isTokenChar c = true ∧ lowerChar c = c) :
    (l.map replChar).map lowerChar = l := by
  induction l with
  | nil => rfl
  | cons c l ih =>
    have hc := h c (by simp)
    have hne : c ≠ '_' := tokenChar_ne_underscore c hc.1
    simp only [List.map_cons]
    rw [show replChar c = c from if_neg hne, hc.2,
      ih fun x hx => h x (List.mem_cons_of_mem c hx)]

theorem join_map_chars (ts : List String)
    (h : ∀ t ∈ ts, ∀ c ∈ t.data, isTokenChar c = true ∧ lowerChar c = c) :
    ((joinUnderscore ts).data.map replChar).map lowerChar
      = sjoin (ts.map String.data) := by
  induction ts with
  | nil => rfl
  | cons t ts ih =>
    cases ts with
    | nil =>
      simp only [joinUnderscore, List.map_cons, List.map_nil, sjoin]
      exact clean_map_id t.data (h t (by simp))
    | cons t2 ts2 =>
      have hj : (joinUnderscore (t :: t2 :: ts2)).data
          = t.data ++ '_' :: (joinUnderscore (t2 :: ts2)).data := by
        rw [show joinUnderscore (t :: t2 :: ts2)
            = (t ++ "_") ++ joinUnderscore (t2 :: ts2) from rfl]
        rw [string_data_append, string_data_append]
        simp
      rw [hj]
      simp only [List.map_append, List.map_cons]
      rw [clean_map_id t.data (h t (by simp)),
        ih fun x hx => h x (List.mem_cons_of_mem t hx),
        show lowerChar (replChar '_') = ' ' from by decide]
      rfl

theorem chain'_no_underscore (l : List Char) (h : ∀ c ∈ l, c ≠ '_') :
    List.Chain' (fun a b => ¬(a = '_' ∧ b = '_')) l := by
  induction l with
  | nil => simp
  | cons a l ih =>
    rw [List.chain'_cons']
    refine ⟨fun b _ hab => h a (by simp) hab.1,
      ih fun x hx => h x (List.mem_cons_of_mem a hx)⟩

theorem joinUnderscore_clean (ts : List String) (h : ∀ t ∈ ts, cleanToken t) :
    cleanJoined (joinUnderscore ts) ∧ (ts ≠ [] → (joinUnderscore ts).data ≠ []) := by
  induction ts with
  | nil =>
    refine ⟨⟨?_, ?_, ?_, ?_⟩, ?_⟩ <;> simp [joinUnderscore, cleanJoined]
  | cons t ts ih =>
    have ht := h t (by simp)
    cases ts with
    | nil =>
      refine ⟨⟨?_, ?_, ?_, ?_⟩, fun _ => ht.1⟩
      · intro c hc
        exact (ht.2 c (List.mem_of_mem_head? hc)).1
      · intro c hc
        exact (ht.2 c (List.mem_of_mem_getLast? hc)).1
      · exact chain'_no_underscore t.data fun c hc => (ht.2 c hc).1
      · exact fun c hc => (ht.2 c hc).2
    | cons t2 ts2 =>
      obtain ⟨⟨ihHead, ihLast, ihChain, ihWs⟩, ihNe⟩ :=
        ih fun x hx => h x (List.mem_cons_of_mem t hx)
      have hJne : (joinUnderscore (t2 :: ts2)).data ≠ [] := ihNe (by simp)
      have hj : (joinUnderscore (t :: t2 :: ts2)).data
          = t.data ++ '_' :: (joinUnderscore (t2 :: ts2)).data := by
        rw [show joinUnderscore (t :: t2 :: ts2)
            = (t ++ "_") ++ joinUnderscore (t2 :: ts2) from rfl]
        rw [string_data_append, string_data_append]
        simp
      constructor
      · refine ⟨?_, ?_, ?_, ?_⟩
        · intro c hc
          rw [hj] at hc
          obtain ⟨a, as, ha⟩ := List.exists_cons_of_ne_nil ht.1
          rw [ha] at hc
          simp only [List.cons_append, List.head?_cons] at hc
          have hac := Option.some.inj hc
          subst hac
          exact (ht.2 a (by rw [ha]; exact List.mem_cons_self _ _)).1
        · intro c hc
          rw [hj, List.getLast?_append_of_ne_nil t.data (by simp),
            show ('_' :: (joinUnderscore (t2 :: ts2)).data)
              = ['_'] ++ (joinUnderscore (t2 :: ts2)).data from rfl,
            List.getLast?_append_of_ne_nil ['_'] hJne] at hc
          exact ihLast c hc
        · rw [hj, List.chain'_append]
          refine ⟨chain'_no_underscore t.data fun c hc => (ht.2 c hc).1, ?_, ?_⟩
          · rw [List.chain'_cons']
            refine ⟨?_, ihChain⟩
            intro y hy hcontra
            exact ihHead y hy hcontra.2
          · intro x hx y hy
            have hxmem : x ∈ t.data := List.mem_of_mem_getLast? hx
            exact fun hcontra => (ht.2 x hxmem).1 hcontra.1
        · intro c hc
          rw [hj] at hc
          rcases List.mem_append.mp hc with hc1 | hc2
          · exact (ht.2 c hc1).2
          · rcases List.mem_cons.mp hc2 with rfl | hc3
            · decide
            · exact ihWs c hc3
      · intro _
        rw [hj]
        simp

theorem simple_tokenize_clean (s : String) :
    ∀ t ∈ simple_tokenize s, cleanToken t := by
  intro t ht
  rcases List.mem_map.mp ht with ⟨l, hl, rfl⟩
  have hcl := tokenizeChars_clean _ l hl
  refine ⟨hcl.1, ?_⟩
  intro c hc
  have hct := hcl.2 c hc
  exact ⟨tokenChar_ne_underscore c hct, tokenChar_not_ws c hct⟩

theorem nonTokenStable (c : Char) (h : isTokenChar c = false) :
    isTokenChar (lowerChar (replChar c)) = false := by
  by_cases he : c = '_'
  · subst he; decide
  · rw [show replChar c = c from if_neg he]
    have hup : c.isUpper = false := by
      by_contra hu
      rw [Bool.not_eq_false] at hu
      have : isTokenChar c = true := by
        simp [isTokenChar, Char.isAlphanum, Char.isAlpha, hu]
      rw [this] at h
      exact absurd h (by decide)
    rw [show lowerChar c = c from if_neg (by simp [hup])]
    exact h

theorem english_filter_subset (ts : List String) (t : String)
    (h : t ∈ english_filter ts) : t ∈ ts := by
  unfold english_filter at h
  exact List.mem_of_mem_filter ((List.dropWhile_sublist _).subset h)

theorem filterMap_map_some (f : String → String) (l : List (Option String)) :
    l.filterMap (fun o => o.map f) = (l.filterMap id).map f := by
  induction l with
  | nil => rfl
  | cons o l ih => cases o <;> simp [ih]

/-! ## Lemmas about the topic pattern matcher -/

theorem splitAtChar_complete (ch : Char) (pre post : List Char) (h : ch ∉ pre) :
    splitAtChar ch (pre ++ ch :: post) = some (pre, post) := by
  induction pre with
  | nil => simp [splitAtChar]
  | cons c pre ih =>
    have hc : ¬(c = ch) := fun he => h (by simp [he])
    have hrec := ih fun hm => h (List.mem_cons_of_mem c hm)
    simp [splitAtChar, hc, hrec]

theorem splitAtChar_sound (ch : Char) (cs : List Char) :
    ∀ pre post : List Char, splitAtChar ch cs = some (pre, post) →
      cs = pre ++ ch :: post ∧ ch ∉ pre := by
  induction cs with
  | nil => intro pre post h; simp [splitAtChar] at h
  | cons c rest ih =>
    intro pre post h
    by_cases hc : c = ch
    · subst hc
      simp [splitAtChar] at h
      obtain ⟨rfl, rfl⟩ := h
      simp
    · cases e : splitAtChar ch rest with
      | none => simp [splitAtChar, hc, e] at h
      | some pp =>
        obtain ⟨p1, p2⟩ := pp
        simp only [splitAtChar, if_neg hc, e] at h
        have h2 := Option.some.inj h
        rw [Prod.mk.injEq] at h2
        obtain ⟨hpre, hpost⟩ := h2
        obtain ⟨hcs, hmem⟩ := ih p1 p2 e
        refine ⟨?_, ?_⟩
        · rw [← hpre, ← hpost, hcs]
          rfl
        · rw [← hpre]
          intro hm
          rcases List.mem_cons.mp hm with he | hm2
          · exact hc he.symm
          · exact hmem hm2

theorem getLast?_decomp (l : List Char) (c : Char) (h : l.getLast? = some c) :
    l = l.dropLast ++ [c] := by
  induction l with
  | nil => simp at h
  | cons a l ih =>
    cases l with
    | nil =>
      simp at h
      subst h
      rfl
    | cons b l2 =>
      rw [List.getLast?_cons_cons] at h
      have hrec := ih h
      rw [show (a :: b :: l2).dropLast = a :: (b :: l2).dropLast from rfl,
        List.cons_append, ← hrec]

theorem reMatchTopic_sound (t : String) (g1 g2 : String)
    (h : reMatchTopic t = some (g1, g2)) :
    ∃ rest : List Char,
      t.data = g1.data ++ ' ' :: '(' :: (g2.data ++ ')' :: rest) ∧
      g1.data ≠ [] ∧ '(' ∉ g1.data ∧ g2.data ≠ [] ∧ ')' ∉ g2.data := by
  unfold reMatchTopic at h
  split at h
  · exact absurd h (by simp)
  rename_i pre post e1
  split at h
  · exact absurd h (by simp)
  rename_i c e2
  split at h
  case isFalse => exact absurd h (by simp)
  rename_i hc
  subst hc
  split at h
  case isTrue => exact absurd h (by simp)
  rename_i hne
  split at h
  · exact absurd h (by simp)
  rename_i g2d rest e3
  split at h
  case isTrue => exact absurd h (by simp)
  rename_i hg2
  have h2 := Option.some.inj h
  rw [Prod.mk.injEq] at h2
  obtain ⟨hg1eq, hg2eq⟩ := h2
  obtain ⟨hcs1, hmem1⟩ := splitAtChar_sound '(' t.data pre post e1
  obtain ⟨hcs2, hmem2⟩ := splitAtChar_sound ')' post g2d rest e3
  have hpre := getLast?_decomp pre ' ' e2
  have hg1d : g1.data = pre.dropLast := by rw [← hg1eq]
  have hg2d : g2.data = g2d := by rw [← hg2eq]
  refine ⟨rest, ?_, ?_, ?_, ?_, ?_⟩
  · rw [hcs1, hpre, hcs2, hg1d, hg2d]
    simp
  · rw [hg1d]; exact hne
  · rw [hg1d]
    intro hm
    exact hmem1 ((List.dropLast_sublist pre).subset hm)
  · rw [hg2d]; exact hg2
  · rw [hg2d]; exact hmem2

/-! ## Claim theorems -/

/-- C1: the claim states that hints skip stopword-style token filtering even
when the resolved language is "en". The code contradicts this (and its own
docstring, which says hints "won't have stopwords removed"): line 132 of
`nodes.py` standardizes every hint with the same `token_filter` selected for
the primary text, so under "en" the stopword of the hint "a big dog" is
removed, and the hint's segment is "big_dog", not "a_big_dog". -/
theorem c1 :
    standardized_concept_uri [] trivialPreprocess "en" "test" [some "a big dog"]
        = "/c/en/test/big_dog" ∧
    standardize_text "a big dog" (select_token_filter "en") = "big_dog" ∧
    standardize_text "a big dog" none = "a_big_dog" :=
  ⟨by decide, by decide, by decide⟩

/-- C6: for every pair of arguments, the retired entry point
`standardized_concept_name` (and its alias `normalized_concept_name`) never
returns a value and always fails with the removal error whose message names
the replacement `standardize_text`. -/
theorem c6 (lang text : String) :
    (∀ v : String, standardized_concept_name lang text ≠ Except.ok v) ∧
    normalized_concept_name lang text = standardized_concept_name lang text ∧
    ∃ e : NotImplementedError,
      standardized_concept_name lang text = Except.error e ∧
      containsSubstring "standardize_text" e.msg ∧
      containsSubstring "removed" e.msg := by
  refine ⟨fun v h => by simp [standardized_concept_name] at h, rfl, ?_⟩
  refine ⟨⟨"standardized_concept_name has been removed. Use standardize_text instead."⟩,
    rfl, ?_, ?_⟩
  · exact ⟨"standardized_concept_name has been removed. Use ".data,
      " instead.".data, by decide⟩
  · exact ⟨"standardized_concept_name has been ".data,
      ". Use standardize_text instead.".data, by decide⟩

/-- C3: `valid_concept_name t` is true exactly when `standardize_text` with
no token filter yields a non-empty string; inputs whose characters are all
separators (punctuation, whitespace, underscores — i.e. no alphanumeric
character) yield false. -/
theorem c3 :
    (∀ t : String, valid_concept_name t = true ↔ standardize_text t none ≠ "") ∧
    ∀ t : String, (∀ c ∈ t.data, isTokenChar c = false) →
      valid_concept_name t = false := by
  constructor
  · intro t
    simp [valid_concept_name, bne_iff_ne]
  · intro t h
    have hnil : tokenizeChars ((t.data.map replChar).map lowerChar) = [] := by
      apply tokenizeChars_nil_of_no_token
      intro c hc
      rcases List.mem_map.mp hc with ⟨b, hb, rfl⟩
      rcases List.mem_map.mp hb with ⟨a, ha, rfl⟩
      exact nonTokenStable a (h a ha)
    have hempty : standardize_text t none = "" := by
      show joinUnderscore
          ((tokenizeChars (((replaceUnderscores t).data).map lowerChar)).map String.mk)
        = ""
      rw [show (replaceUnderscores t).data = t.data.map replChar from rfl, hnil]
      rfl
    simp [valid_concept_name, hempty]

/-- C3 witness: `valid_concept_name` accepts "word" and rejects ",,". -/
theorem c3_witness :
    valid_concept_name "word" = true ∧ valid_concept_name ",," = false :=
  ⟨(c3.1 "word").mpr (by decide), c3.2 ",," (by decide)⟩

/-- C5: a hint equal to the absent marker (`none`, modelling Python `None`)
is discarded before standardization — the URI equals the one built from the
non-absent hints alone — and every remaining hint, including one that
standardizes to the empty string, contributes exactly one positional segment
to the assembled URI, in call order. -/
theorem c5 (al : List (String × String)) (pp : String → String → String)
    (lang text : String) (more : List (Option String)) :
    standardized_concept_uri al pp lang text more
        = standardized_concept_uri al pp lang text ((more.filterMap id).map some) ∧
    standardized_concept_uri al pp lang text more
        = concept_uri (resolve_lcode al lang)
            (standardize_text (pp (replaceUnderscores text) (resolve_lcode al lang))
              (select_token_filter (resolve_lcode al lang)))
            ((more.filterMap id).map fun s =>
              standardize_text s (select_token_filter (resolve_lcode al lang))) := by
  constructor
  · simp only [standardized_concept_uri]
    rw [filterMap_map_some, filterMap_map_some, List.filterMap_map]
    simp [Function.comp]
  · simp only [standardized_concept_uri]
    rw [filterMap_map_some]

/-- C10: the preprocessing collaborator (diacritic stripping,
transliteration) acts only on the primary text: for any two preprocessors
the resulting URIs share the identical hint segments, each computed by
standardizing the raw hint string directly, without preprocessing. -/
theorem c10 (al : List (String × String)) (p1 p2 : String → String → String)
    (lang text : String) (more : List (Option String)) :
    ∃ prim1 prim2 : String,
      standardized_concept_uri al p1 lang text more
          = concept_uri (resolve_lcode al lang) prim1
              ((more.filterMap id).map fun s =>
                standardize_text s (select_token_filter (resolve_lcode al lang))) ∧
      standardized_concept_uri al p2 lang text more
          = concept_uri (resolve_lcode al lang) prim2
              ((more.filterMap id).map fun s =>
                standardize_text s (select_token_filter (resolve_lcode al lang))) := by
  refine ⟨standardize_text (p1 (replaceUnderscores text) (resolve_lcode al lang))
      (select_token_filter (resolve_lcode al lang)),
    standardize_text (p2 (replaceUnderscores text) (resolve_lcode al lang))
      (select_token_filter (resolve_lcode al lang)), ?_, ?_⟩ <;>
    (simp only [standardized_concept_uri]; rw [filterMap_map_some])

/-- C4: the English stopword filter is selected exactly when the lowercased,
alias-resolved language equals "en" (otherwise no filter), and any two
language codes with the same resolution produce identical URIs for the same
text and hints. -/
theorem c4 (al : List (String × String)) (pp : String → String → String)
    (l1 l2 text : String) (more : List (Option String))
    (h : resolve_lcode al l1 = resolve_lcode al l2) :
    standardized_concept_uri al pp l1 text more
        = standardized_concept_uri al pp l2 text more ∧
    standardized_concept_uri al pp l1 text more
        = concept_uri (resolve_lcode al l1)
            (standardize_text (pp (replaceUnderscores text) (resolve_lcode al l1))
              (if resolve_lcode al l1 = "en" then some english_filter else none))
            (more.filterMap fun item => item.map fun s =>
              standardize_text s
                (if resolve_lcode al l1 = "en" then some english_filter else none)) := by
  constructor
  · unfold standardized_concept_uri
    rw [h]
  · rfl

/-- C4 witness: "PT-BR" and "pt" resolve identically through the alias table
`[("pt-br", "pt")]`, so they yield the same URI, built with no filter. -/
theorem c4_witness :
    standardized_concept_uri [("pt-br", "pt")] trivialPreprocess "PT-BR" "dog" []
        = standardized_concept_uri [("pt-br", "pt")] trivialPreprocess "pt" "dog" [] ∧
    standardized_concept_uri [("pt-br", "pt")] trivialPreprocess "PT-BR" "dog" []
        = concept_uri (resolve_lcode [("pt-br", "pt")] "PT-BR")
            (standardize_text
              (trivialPreprocess (replaceUnderscores "dog")
                (resolve_lcode [("pt-br", "pt")] "PT-BR"))
              (if resolve_lcode [("pt-br", "pt")] "PT-BR" = "en"
                then some english_filter else none))
            (List.filterMap (fun item => item.map fun s =>
              standardize_text s
                (if resolve_lcode [("pt-br", "pt")] "PT-BR" = "en"
                  then some english_filter else none))
              ([] : List (Option String))) :=
  c4 [("pt-br", "pt")] trivialPreprocess "PT-BR" "pt" "dog" [] (by decide)

/-- C7: for every text and every token filter respecting the collaborator
contract (tokens are non-empty and contain no underscore and no whitespace),
the string returned by `standardize_text` has no leading underscore, no
trailing underscore, no two consecutive underscores, and no whitespace
character. -/
theorem c7 (text : String) (tf : Option (List String → List String))
    (hf : ∀ ts : List String, (∀ t ∈ ts, cleanToken t) →
      ∀ t ∈ (match tf with | some f => f ts | none => ts), cleanToken t) :
    cleanJoined (standardize_text text tf) :=
  (joinUnderscore_clean _
    (hf (simple_tokenize (replaceUnderscores text))
      (simple_tokenize_clean (replaceUnderscores text)))).1

/-- C7 witness: the contract holds for the English filter (its output tokens
are a subset of its input tokens), so "a big dog!" standardizes to a
well-joined string. -/
theorem c7_witness :
    cleanJoined (standardize_text "a big dog!" (some english_filter)) :=
  c7 "a big dog!" (some english_filter)
    (fun ts h t ht => h t (english_filter_subset ts t ht))

/-- C8: `standardize_text` with no filter is idempotent on already
standardized strings: joining non-empty tokens of lowercase alphanumeric
characters with single underscores and standardizing again returns the same
string. -/
theorem c8 (ts : List String)
    (h : ∀ t ∈ ts, t.data ≠ [] ∧
      ∀ c ∈ t.data, isTokenChar c = true ∧ lowerChar c = c) :
    standardize_text (joinUnderscore ts) none = joinUnderscore ts := by
  show joinUnderscore
      ((tokenizeChars (((joinUnderscore ts).data.map replChar).map lowerChar)).map
        String.mk)
    = joinUnderscore ts
  rw [join_map_chars ts fun t ht => (h t ht).2]
  rw [tokenizeChars_sjoin (ts.map String.data) ?hmem]
  case hmem =>
    intro l hl
    rcases List.mem_map.mp hl with ⟨t, ht, rfl⟩
    exact ⟨(h t ht).1, fun c hc => ((h t ht).2 c hc).1⟩
  rw [List.map_map]
  congr 1
  rw [show (String.mk ∘ String.data) = id from funext string_mk_data, List.map_id]

/-- C8 witness: standardizing the already-standardized "big_dog" again
returns it unchanged. -/
theorem c8_witness :
    standardize_text (joinUnderscore ["big", "dog"]) none
      = joinUnderscore ["big", "dog"] :=
  c8 ["big", "dog"] (by decide)

/-- Unfolding equation for `topic_to_concept`. -/
theorem topic_to_concept_eq (al : List (String × String))
    (pp : String → String → String) (language topic : String) :
    topic_to_concept al pp language topic
      = match reMatchTopic (replaceUnderscores topic) with
        | none =>
          standardized_concept_uri al pp language (replaceUnderscores topic) []
        | some (g1, g2) =>
          standardized_concept_uri al pp language g1
            [some "n", some "wp", some g2] := rfl

/-- Completeness of the embedded pattern matcher: a decomposition of the
topic as "group1 (group2)…" with the group constraints of the pattern forces
a match returning exactly those groups. -/
theorem reMatchTopic_complete (t g1 g2 : String) (rest : List Char)
    (hdec : t.data = g1.data ++ ' ' :: '(' :: (g2.data ++ ')' :: rest))
    (h1 : g1.data ≠ []) (h2 : '(' ∉ g1.data)
    (h3 : g2.data ≠ []) (h4 : ')' ∉ g2.data) :
    reMatchTopic t = some (g1, g2) := by
  have hdec2 : t.data = (g1.data ++ [' ']) ++ '(' :: (g2.data ++ ')' :: rest) := by
    rw [hdec]
    simp
  have hpre : '(' ∉ g1.data ++ [' '] := by
    intro hm
    rcases List.mem_append.mp hm with hm1 | hm2
    · exact h2 hm1
    · simp at hm2
  have e1 : splitAtChar '(' t.data
      = some (g1.data ++ [' '], g2.data ++ ')' :: rest) := by
    rw [hdec2]
    exact splitAtChar_complete '(' _ _ hpre
  have e3 : splitAtChar ')' (g2.data ++ ')' :: rest) = some (g2.data, rest) :=
    splitAtChar_complete ')' _ _ h4
  unfold reMatchTopic
  rw [e1]
  dsimp only
  rw [List.getLast?_concat]
  dsimp only
  rw [if_pos rfl, List.dropLast_concat, if_neg h1, e3]
  dsimp only
  rw [if_neg h3, string_mk_data, string_mk_data]

/-- C2: `topic_to_concept` first replaces underscores with spaces; when the
(underscore-replaced) topic starts with a non-empty run of characters other
than "(", one space, "(", a non-empty run of characters other than ")" and
")", it delegates group 1 with exactly the hints "n", "wp", group 2 in that
order; when no such decomposition exists it delegates the whole
underscore-replaced topic with no hints. -/
theorem c2 (al : List (String × String)) (pp : String → String → String)
    (language topic : String) :
    (∀ g1 g2 rest : String,
      (replaceUnderscores topic).data
          = g1.data ++ ' ' :: '(' :: (g2.data ++ ')' :: rest.data) →
      g1.data ≠ [] → '(' ∉ g1.data → g2.data ≠ [] → ')' ∉ g2.data →
      topic_to_concept al pp language topic
        = standardized_concept_uri al pp language g1
            [some "n", some "wp", some g2]) ∧
    ((¬ ∃ g1 g2 rest : List Char,
        (replaceUnderscores topic).data
            = g1 ++ ' ' :: '(' :: (g2 ++ ')' :: rest) ∧
        g1 ≠ [] ∧ '(' ∉ g1 ∧ g2 ≠ [] ∧ ')' ∉ g2) →
      topic_to_concept al pp language topic
        = standardized_concept_uri al pp language (replaceUnderscores topic) []) := by
  constructor
  · intro g1 g2 rest hdec h1 h2 h3 h4
    rw [topic_to_concept_eq,
      reMatchTopic_complete (replaceUnderscores topic) g1 g2 rest.data hdec h1 h2 h3 h4]
  · intro hno
    cases hm : reMatchTopic (replaceUnderscores topic) with
    | none => rw [topic_to_concept_eq, hm]
    | some p =>
      obtain ⟨g1, g2⟩ := p
      obtain ⟨rest, hdec, hh1, hh2, hh3, hh4⟩ := reMatchTopic_sound _ g1 g2 hm
      exact absurd ⟨g1.data, g2.data, rest, hdec, hh1, hh2, hh3, hh4⟩ hno

/-- C2 witness: "Township (United States)" decomposes with group 1
"Township" and group 2 "United States", so the topic delegates with the
three hints "n", "wp", "United States". -/
theorem c2_witness :
    topic_to_concept [] trivialPreprocess "en" "Township (United States)"
      = standardized_concept_uri [] trivialPreprocess "en" "Township"
          [some "n", some "wp", some "United States"] :=
  (c2 [] trivialPreprocess "en" "Township (United States)").1
    "Township" "United States" "" (by decide) (by decide) (by decide)
    (by decide) (by decide)

/-- C9: on the external-URL branch of `ld_node` (not a term, starts with
"http"), the `site_available` field is false exactly when the URL's
network-location component is one of the two hosts "sw.opencyc.org" and
"umbel.org", and true for every other host. -/
theorem c9 (uri : String) (labelOpt : Option String)
    (h1 : is_term uri = false) (h2 : startsWithHttp uri = true) :
    ((ld_node uri labelOpt).site_available = some false ↔
      netloc uri = "sw.opencyc.org" ∨ netloc uri = "umbel.org") ∧
    ((ld_node uri labelOpt).site_available = some true ↔
      ¬(netloc uri = "sw.opencyc.org" ∨ netloc uri = "umbel.org")) := by
  have hld : (ld_node uri labelOpt).site_available
      = some (!(netloc uri == "sw.opencyc.org" || netloc uri == "umbel.org")) := by
    simp [ld_node, h1, h2]
  rw [hld]
  constructor
  · simp only [Option.some.injEq, Bool.not_eq_false', Bool.or_eq_true, beq_iff_eq]
  · simp only [Option.some.injEq, Bool.not_eq_true', Bool.or_eq_false_iff,
      beq_eq_false_iff_ne, ne_eq, not_or]

/-- C9 witness: the denylisted host "umbel.org" yields `site_available`
false, and an arbitrary other host yields true. -/
theorem c9_witness :
    ((ld_node "http://umbel.org/umbel/rc/Dog" (some "dog")).site_available
        = some false ↔
      netloc "http://umbel.org/umbel/rc/Dog" = "sw.opencyc.org" ∨
        netloc "http://umbel.org/umbel/rc/Dog" = "umbel.org") ∧
    ((ld_node "http://umbel.org/umbel/rc/Dog" (some "dog")).site_available
        = some true ↔
      ¬(netloc "http://umbel.org/umbel/rc/Dog" = "sw.opencyc.org" ∨
        netloc "http://umbel.org/umbel/rc/Dog" = "umbel.org")) :=
  c9 "http://umbel.org/umbel/rc/Dog" (some "dog") (by decide) (by decide)
